import Mathlib

/-!
Shallow embedding of the fetch-merge-render pipeline of the
cricket_player_rag repository (files build_ipl_auction_dataset.py and
build_free_source_pdfs.py), together with theorems settling the frozen
claims about it.

Python strings are embedded as Lean `String` (a wrapper around `List Char`);
machine floats used only as text widths are embedded as `ℚ`; Python dicts
with insertion order are embedded as association lists `List (String × _)`
whose keys are unique in every state the program builds.  External
collaborators that are not part of the repository (the `requests` transport,
`BeautifulSoup` DOM parsing, `unicodedata.normalize`, `str.isprintable`'s
Unicode table, `reportlab.stringWidth`) are passed in as explicit parameters
of the embedded functions, exactly at the call boundary where the source
consumes their results.
-/

/-- Python `\s` on the ASCII subset: the whitespace characters that can
actually occur at the points where the source applies `re.sub(r"\s+", ...)`,
`.split()` and `.strip()` (those operate on ASCII-only or markup text). -/
def isPySpace (c : Char) : Bool :=
  c == ' ' || c == '\t' || c == '\n' || c == '\r' ||
    c == Char.ofNat 11 || c == Char.ofNat 12

/-- Python `str.strip()` on a character list: remove leading and trailing
whitespace. -/
def pyStripL (l : List Char) : List Char :=
  ((l.dropWhile isPySpace).reverse.dropWhile isPySpace).reverse

/-- Python `str.strip()` on a string. -/
def pyStrip (s : String) : String :=
  String.mk (pyStripL s.data)

/-- Worker for `re.sub(r"\s+", " ", t)`: the flag records whether we are
inside a whitespace run whose single replacement space was already emitted. -/
def pySubWsA : Bool → List Char → List Char
  | _, [] => []
  | inRun, c :: cs =>
    if isPySpace c then
      if inRun then pySubWsA true cs else ' ' :: pySubWsA true cs
    else c :: pySubWsA false cs

/-- Python `re.sub(r"\s+", " ", t)`: collapse every whitespace run to one
space. -/
def pySubWsL (l : List Char) : List Char := pySubWsA false l

/-- Python `str.lower()` (ASCII case folding, which is what the source's
comparisons against ASCII literals exercise). -/
def pyLower (s : String) : String := String.mk (s.data.map Char.toLower)

/-- Worker for Python `str.split()`: `acc` holds the current word reversed. -/
def splitWsA : List Char → List Char → List String
  | acc, [] => if acc.isEmpty then [] else [String.mk acc.reverse]
  | acc, c :: cs =>
    if isPySpace c then
      if acc.isEmpty then splitWsA [] cs
      else String.mk acc.reverse :: splitWsA [] cs
    else splitWsA (c :: acc) cs

/-- Python `str.split()` with no argument: whitespace-separated words, with
no empty words produced. -/
def splitWs (s : String) : List String := splitWsA [] s.data

/-- Join a word list with single spaces (Python `" ".join(words)`). -/
def joinWords : List String → String
  | [] => ""
  | [w] => w
  | w :: w2 :: ws => w ++ " " ++ joinWords (w2 :: ws)

/-- Whitespace-collapsed form of a text: its words joined by single spaces,
the canonical Python `" ".join(text.split())`. -/
def collapseWs (s : String) : String := joinWords (splitWs s)

/-- Numeric value of a list of decimal digit characters. -/
def digitsToNat (l : List Char) : Nat :=
  l.foldl (fun a c => 10 * a + (c.toNat - 48)) 0

/-- Lexicographic strict comparison on character lists by code point, the
order Python uses to compare strings in `sorted`. -/
def charsLt : List Char → List Char → Bool
  | [], [] => false
  | [], _ :: _ => true
  | _ :: _, [] => false
  | c :: cs, d :: ds =>
    if c.toNat < d.toNat then true
    else if d.toNat < c.toNat then false
    else charsLt cs ds

/-- Python string `<=` as a Boolean, used as the comparator of `sorted`. -/
def pyStrLe (a b : String) : Bool := !(charsLt b.data a.data)

/-- Boolean test that `pre` is an initial segment of `l` (Python
`startswith` at character level). -/
def leadsWith : List Char → List Char → Bool
  | [], _ => true
  | _ :: _, [] => false
  | c :: cs, d :: ds => c == d && leadsWith cs ds

/-- Boolean test that `needle` occurs contiguously inside `hay` (Python
`in` on strings). -/
def containsChars : List Char → List Char → Bool
  | n, [] => n.isEmpty
  | n, h :: hs => leadsWith n (h :: hs) || containsChars n hs

/-! ## build_ipl_auction_dataset.py, sanitizer and summary helpers -/

/-- Second stage of `sanitize_for_pdf`: keep `ch` when it is a newline or a
printable character of code point at least 32 (`ord(ch) >= 32 and
ch.isprintable()`), where `printable` is Python's Unicode printability
table, an external collaborator. -/
def keepPrintable (printable : Char → Bool) (l : List Char) : List Char :=
  l.filter (fun ch => ch == '\n' || (decide (32 ≤ ch.toNat) && printable ch))

/-- Third stage of `sanitize_for_pdf`: `t.encode("ascii", "ignore")`, which
drops every character with a code point of 128 or more. -/
def asciiIgnore (l : List Char) : List Char :=
  l.filter (fun ch => decide (ch.toNat < 128))

/-- Model of `sanitize_for_pdf` from build_ipl_auction_dataset.py.  The NFKD
normalization table of `unicodedata` and the Unicode printability table of
`str.isprintable` are external collaborators passed as `nfkd` and
`printable`; the rest mirrors the source line by line: empty text short
circuits, then normalize, strip non-printables keeping newlines, restrict
to ASCII, collapse whitespace runs and strip. -/
def sanitize_for_pdf (nfkd : String → String) (printable : Char → Bool)
    (text : String) : String :=
  if text = "" then ""
  else
    String.mk (pyStripL (pySubWsL (asciiIgnore
      (keepPrintable printable (nfkd text).data))))

/-! ## Word wrapping (wrap_text in build_free_source_pdfs.py, draw_wrapped in
build_ipl_auction_dataset.py) -/

/-- Shared loop of `wrap_text` and `draw_wrapped`: `line` is the line being
accumulated; a word is appended when the candidate still fits within
`maxWidth` under the width measure `sw` (reportlab's `stringWidth`, an
external collaborator), otherwise the line is committed and the overflowing
word starts the next line. -/
def wrapAux (sw : String → ℚ) (maxWidth : ℚ) : String → List String → List String
  | line, [] => [line]
  | line, w :: ws =>
    if sw (line ++ " " ++ w) ≤ maxWidth then
      wrapAux sw maxWidth (line ++ " " ++ w) ws
    else
      line :: wrapAux sw maxWidth w ws

/-- Model of `wrap_text` (build_free_source_pdfs.py): split into words,
return `[""]` for wordless text, else run the greedy accumulation loop. -/
def wrap_text (sw : String → ℚ) (maxWidth : ℚ) (text : String) : List String :=
  match splitWs text with
  | [] => [""]
  | w :: ws => wrapAux sw maxWidth w ws

/-- Model of `draw_wrapped` (build_ipl_auction_dataset.py) restricted to the
sequence of lines it draws: identical greedy loop, but wordless text draws
nothing and returns immediately. -/
def draw_wrapped_lines (sw : String → ℚ) (maxWidth : ℚ) (text : String) :
    List String :=
  match splitWs text with
  | [] => []
  | w :: ws => wrapAux sw maxWidth w ws

/-! ## Field derivation (build_ipl_auction_dataset.py) -/

/-- Model of `extract_age_from_born`'s regex step `re.search(r"(\d{4})",
born_text)`: the leftmost position where four consecutive decimal digits
start, returned as a number. -/
def firstYear : List Char → Option Nat
  | [] => none
  | c :: cs =>
    let l := c :: cs
    if l.length ≥ 4 && (l.take 4).all Char.isDigit then
      some (digitsToNat (l.take 4))
    else firstYear cs

/-- Model of `extract_age_from_born`: first 4-digit token of the birth text;
empty when absent or when the year lies outside `[1900, now]`, else the
decimal string of `now - year`, where `now` is the current UTC year. -/
def extract_age_from_born (now : Nat) (born_text : String) : String :=
  match firstYear born_text.data with
  | none => ""
  | some year =>
    if year < 1900 || now < year then "" else toString (now - year)

/-- Exact pass of `find_value`: first listed key that is present in the
infobox with a non-empty value (`if k in infobox and infobox[k]`). -/
def find_value_exact (infobox : List (String × String)) (keys : List String) :
    Option String :=
  keys.findSome? fun k =>
    match infobox.lookup k with
    | some v => if v = "" then none else some v
    | none => none

/-- Relaxed pass of `find_value`: first infobox entry whose lowercased key
contains some lowercased candidate key as a substring and whose value is
non-empty. -/
def find_value_relaxed (infobox : List (String × String)) (keys : List String) :
    Option String :=
  infobox.findSome? fun p =>
    if (keys.any fun k => containsChars (pyLower k).data (pyLower p.1).data)
        && p.2 ≠ "" then
      some p.2
    else none

/-- Model of `find_value`: the exact pass, then the relaxed pass only when
the exact pass returned nothing, then the empty string. -/
def find_value (infobox : List (String × String)) (keys : List String) : String :=
  match find_value_exact infobox keys with
  | some v => v
  | none =>
    match find_value_relaxed infobox keys with
    | some v => v
    | none => ""

/-- Derived scalar fields of a profile as built by `derive_basic_fields`. -/
structure BasicFields where
  age : String
  runs : String
  wickets : String
  matches_ : String
  role : String
  country : String
  ipl_team : String
deriving DecidableEq, Repr

/-- Model of `derive_basic_fields`: infobox is the ordered key/value mapping
parsed from the page, `ipl_team` the explicit external hint from the auction
page, `now` the current UTC year consumed by the age derivation. -/
def derive_basic_fields (now : Nat) (infobox : List (String × String))
    (ipl_team : String) : BasicFields :=
  let born := (infobox.lookup "Born").getD ""
  let age := extract_age_from_born now born
  let runs := find_value infobox ["Runs", "Runs scored", "IPL runs"]
  let wickets := find_value infobox ["Wickets", "IPL wickets"]
  let matches_ := find_value infobox ["Matches", "No. of IPL matches", "IPL matches"]
  let role := (infobox.lookup "Role").getD ""
  let country0 := (infobox.lookup "National side").getD ""
  let country := if country0 = "" then find_value infobox ["Country"] else country0
  let current_team := if ipl_team ≠ "" then ipl_team
    else find_value infobox ["Current team", "Team"]
  { age := age, runs := runs, wickets := wickets, matches_ := matches_,
    role := role, country := country, ipl_team := current_team }

/-! ## Metadata upsert (main of build_ipl_auction_dataset.py) -/

/-- Python `{**a, **b}` on insertion-ordered dicts with unique keys: keys of
`a` keep their position with values overridden by `b` where present, keys
only in `b` are appended in `b`'s order. -/
def pyDictMerge {α : Type} (a b : List (String × α)) : List (String × α) :=
  (a.map fun p => (p.1, ((b.lookup p.1).getD p.2)))
    ++ b.filter fun p => (a.lookup p.1).isNone

/-- Model of the persistence step at the end of `main`: when the run had
zero successes and a prior store exists, nothing is written (`none`);
otherwise the merged store `{**existing_metadata, **metadata}` is written. -/
def finalStore {α : Type} (existing newMeta : List (String × α))
    (successCount : Nat) : Option (List (String × α)) :=
  if successCount == 0 && !existing.isEmpty then none
  else some (pyDictMerge existing newMeta)

/-! ## Resilient clients.  A fetch is modelled against the list of responses
the remote would give to successive request attempts, each a pair of HTTP
status and body.  The result is the outcome, the number of attempts actually
issued, and the list of backoff multipliers `attempt+1` of the sleeps taken
between attempts (the source sleeps `(attempt + 1) * REQUEST_INTERVAL_SECONDS`
respectively `1.5 * (attempt + 1)` seconds). -/

/-- Retryable statuses of `get` in build_ipl_auction_dataset.py. -/
def retryableIpl (s : Nat) : Bool :=
  s == 403 || s == 429 || s == 500 || s == 502 || s == 503 || s == 504

/-- Loop of `get` (build_ipl_auction_dataset.py): `made` attempts already
issued, `fuel` attempts remaining of the 4 allowed.  A retryable status with
attempts left sleeps (recording multiplier `made + 1`) and retries; on the
last attempt it falls through to `raise_for_status`, which raises because
every retryable status is at least 400.  A non-retryable status of 400 or
more raises at once; anything else returns the body.  An empty response list
with fuel left is outside the modelled scenarios and yields the sentinel
`Except.error 0`. -/
def getAttempts : List (Nat × String) → Nat → Nat →
    Except Nat String × Nat × List Nat
  | _, made, 0 => (Except.error 0, made, [])
  | [], made, _ + 1 => (Except.error 0, made, [])
  | (s, b) :: rest, made, fuel + 1 =>
    if retryableIpl s then
      match fuel with
      | 0 => (Except.error s, made + 1, [])
      | f + 1 =>
        let r := getAttempts rest (made + 1) (f + 1)
        (r.1, r.2.1, (made + 1) :: r.2.2)
    else if 400 ≤ s then (Except.error s, made + 1, [])
    else (Except.ok b, made + 1, [])

/-- Model of `get` (build_ipl_auction_dataset.py): `retries = 4`. -/
def getResp (resps : List (Nat × String)) : Except Nat String × Nat × List Nat :=
  getAttempts resps 0 4

/-- Retryable statuses of `get_json` in build_free_source_pdfs.py (no 403). -/
def retryableJson (s : Nat) : Bool :=
  s == 429 || s == 500 || s == 502 || s == 503 || s == 504

/-- Loop of `get_json` (build_free_source_pdfs.py): a retryable status
sleeps and retries without touching `last_exc`; any status of 400 or more
raises inside the `try`, is caught by the blanket `except`, recorded as
`last_exc`, slept on and retried; a status below 400 returns the body.
Exhausting the 3 attempts raises `RuntimeError` carrying `last_exc` (which
is still `none` when only retryable statuses were seen).  Note the sleep is
taken even after the final attempt, before the loop exits. -/
def getJsonGo : List (Nat × String) → Nat → Option Nat → Nat →
    Except (Option Nat) String × Nat × List Nat
  | _, made, lastErr, 0 => (Except.error lastErr, made, [])
  | [], made, lastErr, _ + 1 => (Except.error lastErr, made, [])
  | (s, b) :: rest, made, lastErr, fuel + 1 =>
    if retryableJson s then
      let r := getJsonGo rest (made + 1) lastErr fuel
      (r.1, r.2.1, (made + 1) :: r.2.2)
    else if 400 ≤ s then
      let r := getJsonGo rest (made + 1) (some s) fuel
      (r.1, r.2.1, (made + 1) :: r.2.2)
    else (Except.ok b, made + 1, [])

/-- Model of `get_json` (build_free_source_pdfs.py): `range(3)` attempts. -/
def get_json (resps : List (Nat × String)) :
    Except (Option Nat) String × Nat × List Nat :=
  getJsonGo resps 0 none 3

/-! ## Auction listing extractor (extract_players_from_espn_html) -/

/-- One listing entry `{"name": ..., "ipl_team": ...}`. -/
structure Player where
  name : String
  ipl_team : String
deriving DecidableEq, Repr

/-- Try to consume the literal `pat` from the front of `l`. -/
def matchLitChars : List Char → List Char → Option (List Char)
  | [], rest => some rest
  | _ :: _, [] => none
  | c :: cs, d :: ds => if c == d then matchLitChars cs ds else none

/-- Try to match the regex fragment of the source,
`"name"\s*:\s*"([^"]+)"`, at the very start of `l`; on success return the
captured group and the remainder of the input after the whole match. -/
def matchNameAt (l : List Char) : Option (String × List Char) :=
  match matchLitChars ("\"name\"".data) l with
  | none => none
  | some r1 =>
    match r1.dropWhile isPySpace with
    | ':' :: r3 =>
      match r3.dropWhile isPySpace with
      | q :: r5 =>
        if q = '"' then
          let cap := r5.takeWhile (fun x => x ≠ '"')
          match r5.dropWhile (fun x => x ≠ '"') with
          | _ :: r7 => if cap.isEmpty then none else some (String.mk cap, r7)
          | [] => none
        else none
      | [] => none
    | _ => none

/-- Worker of `re.findall` for the name pattern: scan left to right, and on
a match continue after the match (matches never overlap, as in Python).
Each step either consumes the whole match (at least one character) or
advances by one character, so a fuel of the input length is always enough;
`findNamesFuel_sufficient` below certifies this. -/
def findNamesFuel : Nat → List Char → List String
  | 0, _ => []
  | _ + 1, [] => []
  | fuel + 1, c :: cs =>
    match matchNameAt (c :: cs) with
    | some (cap, rest) => cap :: findNamesFuel fuel rest
    | none => findNamesFuel fuel cs

/-- Model of `re.findall(r'"name"\s*:\s*"([^"]+)"', html)`. -/
def findNames (l : List Char) : List String := findNamesFuel l.length l

/-- Noise filter of the script-fragment heuristic:
`len(n.split()) >= 2 and not n.lower().startswith(("ipl", "auction"))`. -/
def keepName (n : String) : Bool :=
  decide (2 ≤ (splitWs n).length) &&
    !(leadsWith "ipl".data (pyLower n).data ||
      leadsWith "auction".data (pyLower n).data)

/-- First heuristic of the extractor: `sorted(set(names))` (Python sorts
by code point), then the noise filter, each kept name stripped and paired
with an empty team. -/
def scriptPlayers (html : String) : List Player :=
  (((findNames html.data).dedup).mergeSort pyStrLe).filterMap fun n =>
    if keepName n then some { name := pyStrip n, ipl_team := "" } else none

/-- Character class `[A-Za-z.' -]` of the cell regex. -/
def nameClassChar (x : Char) : Bool :=
  (decide ('A' ≤ x) && decide (x ≤ 'Z')) ||
    (decide ('a' ≤ x) && decide (x ≤ 'z')) ||
    x == '.' || x == Char.ofNat 39 || x == ' ' || x == '-'

/-- Cell shape test `re.match(r"^[A-Z][A-Za-z.' -]{2,}$", cell)`: a capital
first character followed by at least two characters from the class. -/
def nameShaped (cell : String) : Bool :=
  match cell.data with
  | [] => false
  | c :: rest =>
    decide ('A' ≤ c) && decide (c ≤ 'Z') && decide (2 ≤ rest.length) &&
      rest.all nameClassChar

/-- One table row of the HTML fallback: skip rows with no cells, else take
the first cell that is name-shaped and has at most 4 words. -/
def rowPlayer (tds : List String) : Option Player :=
  if tds.isEmpty then none
  else
    match tds.find? (fun cell =>
        nameShaped cell && decide ((splitWs cell).length ≤ 4)) with
    | some cell => some { name := cell, ipl_team := "" }
    | none => none

/-- HTML-table fallback heuristic over the rows of cell texts that
`BeautifulSoup` (an external collaborator) extracts from the page. -/
def tablePlayers (rows : List (List String)) : List Player :=
  rows.filterMap rowPlayer

/-- The pre-deduplication `players` list of the extractor: the script
heuristic, and the table fallback only when it produced nothing. -/
def preDedup (html : String) (rows : List (List String)) : List Player :=
  let players := scriptPlayers html
  if players.isEmpty then tablePlayers rows else players

/-- Deduplication key of the final loop: `p["name"].strip().lower()`. -/
def playerKey (p : Player) : String := pyLower (pyStrip p.name)

/-- Final loop of the extractor: keep an entry when its key is non-empty
and unseen, remembering the key. -/
def dedupPlayers : List Player → List String → List Player
  | [], _ => []
  | p :: ps, seen =>
    let k := playerKey p
    if k ≠ "" && !(seen.contains k) then p :: dedupPlayers ps (k :: seen)
    else dedupPlayers ps seen

/-- Model of `extract_players_from_espn_html`, parameterized by the raw
HTML text and by the per-row cell texts the DOM parser yields for it. -/
def extract_players_from_espn_html (html : String)
    (rows : List (List String)) : List Player :=
  dedupPlayers (preDedup html rows) []

/-! ## Statsguru summary extractor (fetch_espn_statsguru_summary) -/

/-- One `tr` of an engine table: its header-cell texts and data-cell texts,
already passed through `clean` (DOM parsing is the external collaborator). -/
structure TRow where
  ths : List String
  tds : List String
deriving DecidableEq, Repr

/-- Python dict assignment `d[k] = v` on an insertion-ordered association
list with unique keys: overwrite in place, or append a new key. -/
def dictInsert {α : Type} (d : List (String × α)) (k : String) (v : α) :
    List (String × α) :=
  if (d.lookup k).isSome then
    d.map fun p => if p.1 == k then (p.1, v) else p
  else d ++ [(k, v)]

/-- Python dict comprehension over a pair list (later pairs win). -/
def pairsToDict (ps : List (String × String)) : List (String × String) :=
  ps.foldl (fun d p => dictInsert d p.1 p.2) []

/-- One data row of the table scan: skipped when its cell count differs
from the header count, when its leading format cell is empty, or when that
cell lowercases to `span` or `overall`; otherwise
`out[fmt] = {headers[i]: tds[i] for i in range(1, len(headers))}`. -/
def statsRow (headers : List String)
    (out : List (String × List (String × String))) (tds : List String) :
    List (String × List (String × String)) :=
  if tds.length ≠ headers.length then out
  else
    match tds with
    | [] => out
    | fmt :: _ =>
      if fmt = "" || pyLower fmt == "span" || pyLower fmt == "overall" then out
      else dictInsert out fmt (pairsToDict ((headers.zip tds).drop 1))

/-- One candidate table: needs at least two rows, a `Mat` column in the
header row, and at least one usable data row; otherwise it is rejected. -/
def tableResult (t : List TRow) :
    Option (List (String × List (String × String))) :=
  if t.length < 2 then none
  else
    match t with
    | [] => none
    | r0 :: rest =>
      let headers := r0.ths
      if headers.contains "Mat" then
        let out := rest.foldl (fun o r => statsRow headers o r.tds) []
        if out.isEmpty then none else some out
      else none

/-- Model of `fetch_espn_statsguru_summary` over the list of
`table.engineTable` element rows found on the page: the first accepted
table wins, and an empty mapping is returned when none is accepted. -/
def fetch_espn_statsguru_summary :
    List (List TRow) → List (String × List (String × String))
  | [] => []
  | t :: ts =>
    match tableResult t with
    | some out => out
    | none => fetch_espn_statsguru_summary ts

/-! ## Supporting lemmas -/

/-- Dropping a while-run never lengthens a list. -/
theorem lenDropWhileLe (p : Char → Bool) (l : List Char) :
    (l.dropWhile p).length ≤ l.length := by
  induction l with
  | nil => simp
  | cons c cs ih =>
    rw [List.dropWhile_cons]
    split
    · exact Nat.le_succ_of_le ih
    · simp

/-- Consuming a literal removes exactly its length from the input. -/
theorem matchLitChars_length (pat l r : List Char)
    (h : matchLitChars pat l = some r) : r.length + pat.length = l.length := by
  induction pat generalizing l with
  | nil =>
    simp only [matchLitChars, Option.some.injEq] at h
    subst h
    simp
  | cons c cs ih =>
    cases l with
    | nil => simp [matchLitChars] at h
    | cons d ds =>
      simp only [matchLitChars] at h
      by_cases hc : (c == d) = true
      · rw [if_pos hc] at h
        have := ih ds h
        simp only [List.length_cons]
        omega
      · rw [if_neg hc] at h
        exact absurd h (by simp)

/-- A successful name-pattern match consumes at least one character. -/
theorem matchNameAt_length (l : List Char) (cap : String) (rest : List Char)
    (h : matchNameAt l = some (cap, rest)) : rest.length < l.length := by
  unfold matchNameAt at h
  split at h
  · exact absurd h (by simp)
  · rename_i r1 heq1
    split at h
    · rename_i r3 heq2
      split at h
      · rename_i q r5 heq3
        split at h
        · split at h
          · rename_i y r7 heq4
            by_cases hce : (List.takeWhile (fun x => decide (x ≠ ('"'))) r5).isEmpty = true
            · simp only [hce, if_true] at h
              exact absurd h (by simp)
            · have hce2 : (List.takeWhile (fun x => decide (x ≠ ('"'))) r5).isEmpty = false := by
                simpa using hce
              simp only [hce2, Bool.false_eq_true, if_false] at h
              have h1 := matchLitChars_length _ _ _ heq1
              have d2 := lenDropWhileLe isPySpace r1
              rw [heq2] at d2
              have d3 := lenDropWhileLe isPySpace r3
              rw [heq3] at d3
              have d4 := lenDropWhileLe (fun x => decide (x ≠ ('"'))) r5
              rw [heq4] at d4
              have hre : rest = r7 := by
                simp only [Option.some.injEq, Prod.mk.injEq] at h
                exact h.2.symm
              subst hre
              simp only [List.length_cons] at d2 d3 d4
              have hp : (("\"name\"".data).length) = 6 := by decide
              omega
          · exact absurd h (by simp)
        · exact absurd h (by simp)
      · exact absurd h (by simp)
    · exact absurd h (by simp)

/-- Any two sufficient fuels agree, so `findNames`' fuel of the input length
is enough: the fuel version computes the true findall scan. -/
theorem findNamesFuel_stable (f1 : Nat) : ∀ (f2 : Nat) (l : List Char),
    l.length ≤ f1 → l.length ≤ f2 → findNamesFuel f1 l = findNamesFuel f2 l := by
  induction f1 with
  | zero =>
    intro f2 l h1 _
    have : l = [] := List.length_eq_zero.mp (Nat.le_zero.mp h1)
    subst this
    cases f2 <;> rfl
  | succ f ih =>
    intro f2 l h1 h2
    cases l with
    | nil => cases f2 <;> rfl
    | cons c cs =>
      cases f2 with
      | zero => simp at h2
      | succ g =>
        simp only [findNamesFuel]
        cases hm : matchNameAt (c :: cs) with
        | none =>
          have hl : cs.length ≤ f := by simp at h1; omega
          have hl2 : cs.length ≤ g := by simp at h2; omega
          simp [ih g cs hl hl2]
        | some pr =>
          obtain ⟨cap, rest⟩ := pr
          have hr := matchNameAt_length _ _ _ hm
          have hl : rest.length ≤ f := by simp at h1 hr; omega
          have hl2 : rest.length ≤ g := by simp at h2 hr; omega
          simp [ih g rest hl hl2]

/-- Extra fuel beyond the input length never changes the scan result. -/
theorem findNamesFuel_sufficient (fuel : Nat) (l : List Char)
    (h : l.length ≤ fuel) : findNamesFuel fuel l = findNames l :=
  findNamesFuel_stable fuel l.length l h (Nat.le_refl _)

/-! ## Claim C4: age derivation -/

/-- Claim C4: the age derivation takes the first 4-digit token of the birth
text; it yields the empty string when no token exists or the year falls
outside `[1900, current-year]`, and otherwise the decimal string of
`current-year - year`; in particular a 1850 birth year yields the empty
string for every current year, and a birth year 25 years before the current
year 2025 yields "25". -/
theorem claim_C4 (now : Nat) (born : String) :
    (firstYear born.data = none → extract_age_from_born now born = "") ∧
    (∀ y, firstYear born.data = some y →
      ((y < 1900 ∨ now < y) → extract_age_from_born now born = "") ∧
      (1900 ≤ y → y ≤ now → extract_age_from_born now born = toString (now - y))) ∧
    extract_age_from_born now "Born 14 May 1850, India" = "" ∧
    extract_age_from_born 2025 "Born 5 June 2000, India" = toString (2025 - 2000) := by
  refine ⟨?_, ?_, ?_, ?_⟩
  · intro h
    simp [extract_age_from_born, h]
  · intro y hy
    constructor
    · intro hout
      have hb : (decide (y < 1900) || decide (now < y)) = true := by
        rcases hout with h | h <;> simp [h]
      simp [extract_age_from_born, hy, hb]
    · intro h1 h2
      have hb : (decide (y < 1900) || decide (now < y)) = false := by
        simp only [Bool.or_eq_false_iff, decide_eq_false_iff_not]
        omega
      simp [extract_age_from_born, hy, hb]
  · have hf : firstYear ("Born 14 May 1850, India").data = some 1850 := by decide
    simp [extract_age_from_born, hf]
  · have hf : firstYear ("Born 5 June 2000, India").data = some 2000 := by decide
    simp [extract_age_from_born, hf]

/-- Witness for C4 at a concrete birth text and current year. -/
theorem claim_C4_witness :
    extract_age_from_born 2025 "Born 5 June 2000, India" = toString (2025 - 2000) :=
  ((claim_C4 2025 "Born 5 June 2000, India").2.1 2000 (by decide)).2
    (by norm_num) (by norm_num)

/-! ## Claim C3: field precedence -/

/-- The exact pass finds nothing in an empty infobox. -/
theorem find_value_exact_nil (keys : List String) :
    find_value_exact [] keys = none := by
  induction keys with
  | nil => rfl
  | cons k ks ih =>
    simp only [find_value_exact, List.findSome?_cons] at ih ⊢
    simpa using ih

/-- The relaxed pass finds nothing in an empty infobox. -/
theorem find_value_relaxed_nil (keys : List String) :
    find_value_relaxed [] keys = none := rfl

/-- Claim C3: for each derived scalar such as the team, a non-empty
external hint beats any infobox value; with an empty hint the infobox
lookup chain is used, in particular an exact non-empty "Current team"
entry; with neither the field is the empty string; and inside `find_value`
the relaxed substring pass is consulted only when the exact pass over all
candidate keys yields nothing. -/
theorem claim_C3 (now : Nat) (infobox : List (String × String)) (hint : String) :
    (hint ≠ "" → (derive_basic_fields now infobox hint).ipl_team = hint) ∧
    (hint = "" → (derive_basic_fields now infobox hint).ipl_team =
      find_value infobox ["Current team", "Team"]) ∧
    (∀ v, infobox.lookup "Current team" = some v → v ≠ "" → hint = "" →
      (derive_basic_fields now infobox hint).ipl_team = v) ∧
    (hint = "" → infobox = [] →
      (derive_basic_fields now infobox hint).ipl_team = "") ∧
    (∀ keys v, find_value_exact infobox keys = some v →
      find_value infobox keys = v) ∧
    (∀ keys, find_value_exact infobox keys = none →
      find_value infobox keys = (find_value_relaxed infobox keys).getD "") := by
  refine ⟨?_, ?_, ?_, ?_, ?_, ?_⟩
  · intro h
    simp [derive_basic_fields, h]
  · intro h
    simp [derive_basic_fields, h]
  · intro v hv hne h
    subst h
    have hex : find_value_exact infobox ["Current team", "Team"] = some v := by
      simp [find_value_exact, List.findSome?_cons, hv, hne]
    simp [derive_basic_fields, find_value, hex]
  · intro h hbox
    subst h
    subst hbox
    simp [derive_basic_fields, find_value, find_value_exact_nil,
      find_value_relaxed_nil]
  · intro keys v h
    simp [find_value, h]
  · intro keys h
    simp only [find_value, h]
    cases find_value_relaxed infobox keys <;> rfl

/-- Witness for C3: a conflicting hint and infobox value, the hint wins. -/
theorem claim_C3_witness :
    (derive_basic_fields 2025 [("Current team", "CSK")] "MI").ipl_team = "MI" :=
  (claim_C3 2025 [("Current team", "CSK")] "MI").1 (by decide)

/-! ## Claim C5: metadata upsert -/

/-- Lookup in the overridden copy of the prior store: keys keep their
position and take the new run value when that run has one. -/
theorem lookup_mergeLeft {α : Type} (a b : List (String × α)) (k : String) :
    ((a.map fun p => (p.1, ((b.lookup p.1).getD p.2))).lookup k) =
      (a.lookup k).map fun v => (b.lookup k).getD v := by
  induction a with
  | nil => simp
  | cons hd tl ih =>
    obtain ⟨k1, v1⟩ := hd
    by_cases h : (k == k1) = true
    · have hk : k = k1 := eq_of_beq h
      subst hk
      simp [List.lookup_cons]
    · simp only [List.map_cons, List.lookup_cons, h]
      exact ih

/-- Lookup among the appended new-only entries: for a key absent from the
prior store it sees exactly the new run entries. -/
theorem lookup_mergeRight {α : Type} (a b : List (String × α)) (k : String)
    (ha : a.lookup k = none) :
    ((b.filter fun p => (a.lookup p.1).isNone).lookup k) = b.lookup k := by
  induction b with
  | nil => simp
  | cons hd tl ih =>
    obtain ⟨k1, v1⟩ := hd
    by_cases h : (k == k1) = true
    · have hk : k = k1 := eq_of_beq h
      subst hk
      simp only [List.filter_cons, ha, Option.isNone_none]
      simp [List.lookup_cons]
    · simp only [List.filter_cons]
      by_cases hkeep : ((a.lookup k1).isNone : Bool) = true
      · simp only [hkeep, if_true, List.lookup_cons, h]
        exact ih
      · simp only [hkeep, Bool.false_eq_true, if_false]
        rw [ih]
        simp [List.lookup_cons, h]

/-- Lookup distributes over list append of stores. -/
theorem lookup_append_store {α : Type} (l1 l2 : List (String × α)) (k : String) :
    (l1 ++ l2).lookup k =
      match l1.lookup k with
      | some v => some v
      | none => l2.lookup k := by
  induction l1 with
  | nil => simp
  | cons hd tl ih =>
    obtain ⟨k1, v1⟩ := hd
    by_cases h : (k == k1) = true
    · simp [List.lookup_cons, h]
    · simp only [List.cons_append, List.lookup_cons, h]
      exact ih

/-- A key of the new run is present in the merge with the new value. -/
theorem pyDictMerge_new {α : Type} (a b : List (String × α)) (k : String)
    (v : α) (hb : b.lookup k = some v) : (pyDictMerge a b).lookup k = some v := by
  unfold pyDictMerge
  rw [lookup_append_store]
  rw [lookup_mergeLeft]
  cases ha : a.lookup k with
  | some v0 => simp [hb]
  | none =>
    simp only [Option.map_none']
    rw [lookup_mergeRight a b k ha]
    exact hb

/-- A key the new run does not produce keeps its prior-store value. -/
theorem pyDictMerge_old {α : Type} (a b : List (String × α)) (k : String)
    (hb : b.lookup k = none) : (pyDictMerge a b).lookup k = a.lookup k := by
  unfold pyDictMerge
  rw [lookup_append_store]
  rw [lookup_mergeLeft]
  cases ha : a.lookup k with
  | some v0 => simp [hb]
  | none =>
    simp only [Option.map_none']
    rw [lookup_mergeRight a b k ha]
    exact hb

/-- Claim C5: with a prior store holding key A and a run succeeding only on
key B, the written store keeps A at its prior value and holds B at the run
value; newly successful records overwrite prior entries with the same name;
and a run with zero successes leaves a non-empty prior store untouched
(nothing is written at all). -/
theorem claim_C5 {α : Type} (existing newMeta : List (String × α))
    (ka kb : String) (va vb : α) (n : Nat) :
    (existing ≠ [] → finalStore existing newMeta 0 = none) ∧
    (finalStore existing newMeta (n + 1) = some (pyDictMerge existing newMeta)) ∧
    (existing.lookup ka = some va → newMeta.lookup ka = none →
      (pyDictMerge existing newMeta).lookup ka = some va) ∧
    (newMeta.lookup kb = some vb →
      (pyDictMerge existing newMeta).lookup kb = some vb) := by
  refine ⟨?_, ?_, ?_, ?_⟩
  · intro h
    have : existing.isEmpty = false := by
      cases existing
      · exact absurd rfl h
      · rfl
    simp [finalStore, this]
  · simp [finalStore]
  · intro ha hb
    rw [pyDictMerge_old existing newMeta ka hb]
    exact ha
  · intro hb
    exact pyDictMerge_new existing newMeta kb vb hb

/-- Witness for C5 at a concrete two-store scenario. -/
theorem claim_C5_witness :
    finalStore [("A", 1)] [("B", 2)] 1 = some (pyDictMerge [("A", 1)] [("B", 2)]) ∧
    (pyDictMerge [("A", 1)] [("B", 2)]).lookup "A" = some 1 ∧
    (pyDictMerge [("A", 1)] [("B", 2)]).lookup "B" = some 2 ∧
    finalStore [("A", 1)] ([] : List (String × Nat)) 0 = none :=
  ⟨(claim_C5 [("A", 1)] [("B", 2)] "A" "B" 1 2 0).2.1,
    (claim_C5 [("A", 1)] [("B", 2)] "A" "B" 1 2 0).2.2.1 (by decide) (by decide),
    (claim_C5 [("A", 1)] [("B", 2)] "A" "B" 1 2 0).2.2.2 (by decide),
    (claim_C5 [("A", 1)] ([] : List (String × Nat)) "A" "B" 1 2 0).1 (by decide)⟩

/-! ## Claim C9: stats-table tolerance -/

/-- Claim C9: a data row whose cell count differs from the header count is
skipped (total function, no error); a row whose leading format cell is
empty or case-insensitively "Span" or "Overall" is skipped; and when no
table is accepted the extractor returns the empty mapping. -/
theorem claim_C9 :
    (∀ (headers : List String) (out : List (String × List (String × String)))
      (tds : List String), tds.length ≠ headers.length →
      statsRow headers out tds = out) ∧
    (∀ (headers : List String) (out : List (String × List (String × String)))
      (fmt : String) (rest : List String),
      (fmt = "" ∨ pyLower fmt = "span" ∨ pyLower fmt = "overall") →
      statsRow headers out (fmt :: rest) = out) ∧
    (∀ tables : List (List TRow), (∀ t ∈ tables, tableResult t = none) →
      fetch_espn_statsguru_summary tables = []) := by
  refine ⟨?_, ?_, ?_⟩
  · intro headers out tds h
    simp [statsRow, h]
  · intro headers out fmt rest h
    simp only [statsRow]
    split
    · rfl
    · have hb : (decide (fmt = "") || pyLower fmt == "span" || pyLower fmt == "overall") = true := by
        rcases h with h | h | h <;> simp [h]
      simp only [hb, if_true]
  · intro tables h
    induction tables with
    | nil => rfl
    | cons t ts ih =>
      have ht : tableResult t = none := h t (List.mem_cons_self t ts)
      have hts : ∀ u ∈ ts, tableResult u = none := fun u hu =>
        h u (List.mem_cons_of_mem t hu)
      simp only [fetch_espn_statsguru_summary, ht]
      exact ih hts

/-- Witness for C9 on concrete malformed tables. -/
theorem claim_C9_witness :
    statsRow ["Format", "Mat"] [] ["T20Is"] = [] ∧
    statsRow ["Format", "Mat"] [] ["Overall", "20"] = [] ∧
    fetch_espn_statsguru_summary [[⟨["Format", "Runs"], []⟩,
      ⟨[], ["ODIs", "300"]⟩]] = [] :=
  ⟨claim_C9.1 ["Format", "Mat"] [] ["T20Is"] (by decide),
    claim_C9.2.1 ["Format", "Mat"] [] "Overall" ["20"] (by right; right; decide),
    claim_C9.2.2 [[⟨["Format", "Runs"], []⟩, ⟨[], ["ODIs", "300"]⟩]]
      (by intro t ht; simp at ht; subst ht; decide)⟩

/-! ## Claims C6 and C7: resilient clients -/

/-- The 4-attempt loop issues at most `made + fuel` attempts in total. -/
theorem getAttempts_le (resps : List (Nat × String)) :
    ∀ (made fuel : Nat), (getAttempts resps made fuel).2.1 ≤ made + fuel := by
  induction resps with
  | nil =>
    intro made fuel
    cases fuel <;> simp [getAttempts]
  | cons hd tl ih =>
    intro made fuel
    obtain ⟨s, b⟩ := hd
    cases fuel with
    | zero => simp [getAttempts]
    | succ f =>
      simp only [getAttempts]
      by_cases hr : retryableIpl s = true
      · rw [if_pos hr]
        cases f with
        | zero => simp
        | succ g =>
          have := ih (made + 1) (g + 1)
          simp only []
          omega
      · rw [if_neg hr]
        by_cases h4 : 400 ≤ s
        · simp [h4]
        · simp [h4]

/-- The backoff multipliers of the 4-attempt loop are the consecutive
integers starting at `made + 1`: the sleeps grow linearly. -/
theorem getAttempts_backoffs (resps : List (Nat × String)) :
    ∀ (made fuel : Nat), (getAttempts resps made fuel).2.2 =
      List.range' (made + 1) (getAttempts resps made fuel).2.2.length := by
  induction resps with
  | nil =>
    intro made fuel
    cases fuel <;> simp [getAttempts]
  | cons hd tl ih =>
    intro made fuel
    obtain ⟨s, b⟩ := hd
    cases fuel with
    | zero => simp [getAttempts]
    | succ f =>
      simp only [getAttempts]
      by_cases hr : retryableIpl s = true
      · rw [if_pos hr]
        cases f with
        | zero => simp
        | succ g =>
          simp only [List.length_cons, List.range'_succ]
          rw [ih (made + 1) (g + 1)]
          simp [List.length_range']
      · rw [if_neg hr]
        by_cases h4 : 400 ≤ s <;> simp [h4]

/-- The 3-attempt loop issues at most `made + fuel` attempts in total. -/
theorem getJsonGo_le (resps : List (Nat × String)) :
    ∀ (made : Nat) (lastErr : Option Nat) (fuel : Nat),
      (getJsonGo resps made lastErr fuel).2.1 ≤ made + fuel := by
  induction resps with
  | nil =>
    intro made lastErr fuel
    cases fuel <;> simp [getJsonGo]
  | cons hd tl ih =>
    intro made lastErr fuel
    obtain ⟨s, b⟩ := hd
    cases fuel with
    | zero => simp [getJsonGo]
    | succ f =>
      simp only [getJsonGo]
      by_cases hr : retryableJson s = true
      · rw [if_pos hr]
        have := ih (made + 1) lastErr f
        show (getJsonGo tl (made + 1) lastErr f).2.1 ≤ made + (f + 1)
        omega
      · rw [if_neg hr]
        by_cases h4 : 400 ≤ s
        · simp only [h4, if_true]
          have := ih (made + 1) (some s) f
          show (getJsonGo tl (made + 1) (some s) f).2.1 ≤ made + (f + 1)
          omega
        · simp [h4]

/-- The backoff multipliers of the 3-attempt loop are likewise the
consecutive integers starting at `made + 1`. -/
theorem getJsonGo_backoffs (resps : List (Nat × String)) :
    ∀ (made : Nat) (lastErr : Option Nat) (fuel : Nat),
      (getJsonGo resps made lastErr fuel).2.2 =
        List.range' (made + 1) (getJsonGo resps made lastErr fuel).2.2.length := by
  induction resps with
  | nil =>
    intro made lastErr fuel
    cases fuel <;> simp [getJsonGo]
  | cons hd tl ih =>
    intro made lastErr fuel
    obtain ⟨s, b⟩ := hd
    cases fuel with
    | zero => simp [getJsonGo]
    | succ f =>
      simp only [getJsonGo]
      by_cases hr : retryableJson s = true
      · rw [if_pos hr]
        simp only [List.length_cons, List.range'_succ]
        rw [ih (made + 1) lastErr f]
        simp [List.length_range']
      · rw [if_neg hr]
        by_cases h4 : 400 ≤ s
        · simp only [h4, if_true]
          simp only [List.length_cons, List.range'_succ]
          rw [ih (made + 1) (some s) f]
          simp [List.length_range']
        · simp [h4]

/-- Counterexample to claim C6: through the 3-attempt client `get_json`,
three consecutive 503 responses exhaust the attempt budget, so the 200
waiting for a fourth attempt is never requested: the fetch fails (with no
recorded cause) after exactly 3 attempts instead of yielding the 200
body. -/
theorem claim_C6_cex :
    get_json [(503, "a"), (503, "b"), (503, "c"), (200, "ok")] =
      (Except.error none, 3, [1, 2, 3]) ∧
    (get_json [(503, "a"), (503, "b"), (503, "c"), (200, "ok")]).1 ≠
      Except.ok "ok" := by
  constructor
  · rfl
  · intro h
    simp [get_json, getJsonGo, retryableJson] at h

/-- Amended claim C6: through the 4-attempt client `get` of
build_ipl_auction_dataset.py, three consecutive 503 responses followed by a
200 on the fourth attempt yield the 200 body after exactly 4 attempts, with
strictly increasing backoff sleeps `interval, 2 * interval, 3 * interval`
for every positive request interval; through the 3-attempt client
`get_json` of build_free_source_pdfs.py, the same response sequence
instead exhausts retries after 3 attempts and fails without a fourth
request. -/
theorem claim_C6_amended (x y z b : String) (interval : ℚ)
    (hpos : 0 < interval) :
    getResp [(503, x), (503, y), (503, z), (200, b)] =
      (Except.ok b, 4, [1, 2, 3]) ∧
    (getResp [(503, x), (503, y), (503, z), (200, b)]).2.1 ≤ 4 ∧
    List.Chain' (fun a c => a < c)
      (((getResp [(503, x), (503, y), (503, z), (200, b)]).2.2).map
        (fun m => interval * (m : ℚ))) ∧
    get_json [(503, x), (503, y), (503, z), (200, b)] =
      (Except.error none, 3, [1, 2, 3]) := by
  refine ⟨rfl, ?_, ?_, rfl⟩
  · exact getAttempts_le _ 0 4
  · have hlist : getResp [(503, x), (503, y), (503, z), (200, b)] =
        (Except.ok b, 4, [1, 2, 3]) := rfl
    rw [hlist]
    have e1 : interval * (((1 : Nat)) : ℚ) < interval * (((2 : Nat)) : ℚ) := by
      apply mul_lt_mul_of_pos_left _ hpos
      norm_num
    have e2 : interval * (((2 : Nat)) : ℚ) < interval * (((3 : Nat)) : ℚ) := by
      apply mul_lt_mul_of_pos_left _ hpos
      norm_num
    show List.Chain' (fun a c => a < c)
      [interval * (((1 : Nat)) : ℚ), interval * (((2 : Nat)) : ℚ),
        interval * (((3 : Nat)) : ℚ)]
    exact List.Chain'.cons e1 (List.Chain'.cons e2 (List.chain'_singleton _))

/-- Witness for the amended C6 at interval 1. -/
theorem claim_C6_amended_witness :
    getResp [(503, "a"), (503, "b"), (503, "c"), (200, "ok")] =
      (Except.ok "ok", 4, [1, 2, 3]) :=
  (claim_C6_amended "a" "b" "c" "ok" 1 (by norm_num)).1

/-- Counterexample to claim C7: in `get_json`, a 404 (a status outside the
retryable set) does not fail immediately: the raised error is caught by the
blanket handler, a backoff sleep is taken, and a second request attempt is
issued, which here returns a body. -/
theorem claim_C7_cex :
    get_json [(404, "x"), (200, "ok")] = (Except.ok "ok", 2, [1]) ∧
    (get_json [(404, "x"), (200, "ok")]).2.1 ≠ 1 := by
  constructor
  · rfl
  · intro h
    simp [get_json, getJsonGo, retryableJson] at h

/-- Amended claim C7: the three-bucket classification holds for `get` of
build_ipl_auction_dataset.py (statuses 403/429/500/502/503/504 sleep with a
linearly increasing backoff and retry within the 4-attempt ceiling; a
non-retryable status below 400 returns the body on the first attempt; a
non-retryable status of 400 or more, such as 404, fails immediately after a
single attempt).  In `get_json` of build_free_source_pdfs.py the status
check treats only 429/500/502/503/504 as retryable, but any other failing
status (403 or 404 included) raises into the blanket exception handler and
is also slept on and retried, within a 3-attempt ceiling; only a
non-retryable status below 400 returns immediately. -/
theorem claim_C7_amended (s t : Nat) (b c : String)
    (rest rest2 resps : List (Nat × String)) :
    (retryableIpl s = false → s < 400 →
      getResp ((s, b) :: rest) = (Except.ok b, 1, [])) ∧
    (retryableIpl s = false → 400 ≤ s →
      getResp ((s, b) :: rest) = (Except.error s, 1, [])) ∧
    (retryableIpl s = true →
      ((getResp ((s, b) :: rest)).2.2).head? = some 1) ∧
    ((getResp resps).2.1 ≤ 4 ∧ (get_json resps).2.1 ≤ 3) ∧
    ((getResp resps).2.2 = List.range' 1 ((getResp resps).2.2).length ∧
      (get_json resps).2.2 = List.range' 1 ((get_json resps).2.2).length) ∧
    (retryableJson s = false → s < 400 →
      get_json ((s, b) :: rest) = (Except.ok b, 1, [])) ∧
    (retryableJson s = false → 400 ≤ s → retryableJson t = false → t < 400 →
      get_json ((s, b) :: (t, c) :: rest2) = (Except.ok c, 2, [1])) := by
  refine ⟨?_, ?_, ?_, ⟨?_, ?_⟩, ⟨?_, ?_⟩, ?_, ?_⟩
  · intro hr h4
    have h4b : ¬ 400 ≤ s := by omega
    simp [getResp, getAttempts, hr, h4b]
  · intro hr h4
    simp [getResp, getAttempts, hr, h4]
  · intro hr
    simp [getResp, getAttempts, hr]
  · exact getAttempts_le resps 0 4
  · exact getJsonGo_le resps 0 none 3
  · exact getAttempts_backoffs resps 0 4
  · exact getJsonGo_backoffs resps 0 none 3
  · intro hr h4
    have h4b : ¬ 400 ≤ s := by omega
    simp [get_json, getJsonGo, hr, h4b]
  · intro hr h4 hrt h4t
    have h4tb : ¬ 400 ≤ t := by omega
    simp [get_json, getJsonGo, hr, h4, hrt, h4tb]

/-- Witness for the amended C7 at concrete statuses. -/
theorem claim_C7_amended_witness :
    getResp [(404, "x")] = (Except.error 404, 1, []) ∧
    getResp [(204, "b")] = (Except.ok "b", 1, []) ∧
    get_json [(403, "x"), (200, "ok")] = (Except.ok "ok", 2, [1]) :=
  ⟨(claim_C7_amended 404 200 "x" "ok" [] [] []).2.1 (by decide) (by norm_num),
    (claim_C7_amended 204 200 "b" "ok" [] [] []).1 (by decide) (by norm_num),
    (claim_C7_amended 403 200 "x" "ok" [] [] []).2.2.2.2.2.2 (by decide)
      (by norm_num) (by decide) (by norm_num)⟩

/-! ## Claim C1: word wrap -/

/-- The greedy loop always emits at least one line. -/
theorem wrapAux_ne_nil (sw : String → ℚ) (mw : ℚ) :
    ∀ (ws : List String) (line : String), wrapAux sw mw line ws ≠ [] := by
  intro ws
  induction ws with
  | nil => intro line; simp [wrapAux]
  | cons w tl ih =>
    intro line
    simp only [wrapAux]
    split
    · exact ih (line ++ " " ++ w)
    · simp

/-- Joining a cons with a non-empty tail prepends the head and a space. -/
theorem joinWords_cons (a : String) (l : List String) (h : l ≠ []) :
    joinWords (a :: l) = a ++ " " ++ joinWords l := by
  cases l with
  | nil => exact absurd rfl h
  | cons b tl => rfl

/-- A line that already contains a joined word can be re-split from the
join: appending inside the head commutes with consing the word. -/
theorem joinWords_shift (a b : String) (l : List String) :
    joinWords ((a ++ " " ++ b) :: l) = joinWords (a :: b :: l) := by
  cases l with
  | nil => rfl
  | cons c tl =>
    show (a ++ " " ++ b) ++ " " ++ joinWords (c :: tl) =
      a ++ " " ++ (b ++ " " ++ joinWords (c :: tl))
    simp [String.append_assoc]

/-- The greedy loop is lossless: joining its lines with single spaces is
joining the pending line and remaining words with single spaces. -/
theorem wrapAux_join (sw : String → ℚ) (mw : ℚ) :
    ∀ (ws : List String) (line : String),
      joinWords (wrapAux sw mw line ws) = joinWords (line :: ws) := by
  intro ws
  induction ws with
  | nil => intro line; rfl
  | cons w tl ih =>
    intro line
    simp only [wrapAux]
    split
    · rw [ih (line ++ " " ++ w)]
      exact joinWords_shift line w tl
    · rw [joinWords_cons line (wrapAux sw mw w tl) (wrapAux_ne_nil sw mw tl w)]
      rw [ih w]
      rw [← joinWords_cons line (w :: tl) (by simp)]

/-- Splitting walks through a whitespace-free block by accumulating it. -/
theorem splitWsA_word : ∀ (w acc cs : List Char),
    (∀ c ∈ w, isPySpace c = false) →
    splitWsA acc (w ++ cs) = splitWsA (w.reverse ++ acc) cs := by
  intro w
  induction w with
  | nil => intro acc cs _; rfl
  | cons c w' ih =>
    intro acc cs h
    have hc : isPySpace c = false := h c (by simp)
    show splitWsA acc (c :: (w' ++ cs)) = _
    simp only [splitWsA, hc, Bool.false_eq_true, if_false]
    rw [ih (c :: acc) cs (fun x hx => h x (by simp [hx]))]
    rw [List.reverse_cons, List.append_assoc]
    rfl

/-- Splitting a single-space join of non-empty whitespace-free words
recovers exactly the word list. -/
theorem splitWs_join : ∀ ws : List String,
    (∀ w ∈ ws, w.data ≠ [] ∧ ∀ c ∈ w.data, isPySpace c = false) →
    splitWs (joinWords ws) = ws := by
  intro ws
  induction ws with
  | nil => intro _; rfl
  | cons w tl ih =>
    intro h
    have hw := h w (by simp)
    have hmk : String.mk w.data = w := rfl
    cases tl with
    | nil =>
      show splitWsA [] ((joinWords [w]).data) = [w]
      have hj : joinWords [w] = w := rfl
      rw [hj]
      have h5 := splitWsA_word w.data [] [] hw.2
      rw [List.append_nil] at h5
      rw [h5]
      obtain ⟨c, cs, hcc⟩ := List.exists_cons_of_ne_nil hw.1
      rw [List.append_nil]
      show (if (w.data.reverse).isEmpty then [] else [String.mk w.data.reverse.reverse]) = [w]
      have hne : (w.data.reverse).isEmpty = false := by
        rw [hcc]
        simp
      rw [hne]
      simp only [Bool.false_eq_true, if_false, List.reverse_reverse]
    | cons w2 tl2 =>
      have hjoin : joinWords (w :: w2 :: tl2) = w ++ " " ++ joinWords (w2 :: tl2) := rfl
      show splitWsA [] ((joinWords (w :: w2 :: tl2)).data) = _
      rw [hjoin]
      have hdata : (w ++ " " ++ joinWords (w2 :: tl2)).data =
          w.data ++ (' ' :: (joinWords (w2 :: tl2)).data) := by
        rw [String.data_append, String.data_append, List.append_assoc]
        rfl
      rw [hdata]
      rw [splitWsA_word w.data [] (' ' :: (joinWords (w2 :: tl2)).data) hw.2]
      rw [List.append_nil]
      have hsp : isPySpace ' ' = true := rfl
      show (if (w.data.reverse).isEmpty then
          splitWsA [] ((joinWords (w2 :: tl2)).data)
        else String.mk w.data.reverse.reverse ::
          splitWsA [] ((joinWords (w2 :: tl2)).data)) = _
      obtain ⟨c, cs, hcc⟩ := List.exists_cons_of_ne_nil hw.1
      have hne : (w.data.reverse).isEmpty = false := by
        rw [hcc]
        simp
      rw [hne]
      simp only [Bool.false_eq_true, if_false, List.reverse_reverse]
      rw [hmk]
      have := ih (fun u hu => h u (by simp [hu]))
      show w :: splitWs (joinWords (w2 :: tl2)) = w :: w2 :: tl2
      rw [this]

/-- Every word the splitter produces is non-empty and whitespace-free. -/
theorem splitWsA_words_wf : ∀ (l acc : List Char),
    (∀ c ∈ acc, isPySpace c = false) →
    ∀ w ∈ splitWsA acc l, w.data ≠ [] ∧ ∀ c ∈ w.data, isPySpace c = false := by
  intro l
  induction l with
  | nil =>
    intro acc hacc w hw
    show _ ∧ _
    by_cases he : acc.isEmpty = true
    · simp [splitWsA, he] at hw
    · have he2 : acc.isEmpty = false := by simpa using he
      simp only [splitWsA, he2, Bool.false_eq_true, if_false,
        List.mem_singleton] at hw
      subst hw
      constructor
      · show acc.reverse ≠ []
        intro hh
        rw [List.reverse_eq_nil_iff] at hh
        subst hh
        simp at he2
      · intro c hc
        show isPySpace c = false
        exact hacc c (by
          have : c ∈ acc.reverse := hc
          simpa using this)
  | cons c cs ih =>
    intro acc hacc w hw
    by_cases hc : isPySpace c = true
    · by_cases he : acc.isEmpty = true
      · simp only [splitWsA, hc, if_true, he] at hw
        exact ih [] (by simp) w hw
      · have he2 : acc.isEmpty = false := by simpa using he
        simp only [splitWsA, hc, if_true, he2, Bool.false_eq_true, if_false,
          List.mem_cons] at hw
        rcases hw with hw | hw
        · subst hw
          constructor
          · show acc.reverse ≠ []
            intro hh
            rw [List.reverse_eq_nil_iff] at hh
            subst hh
            simp at he2
          · intro x hx
            exact hacc x (by
              have : x ∈ acc.reverse := hx
              simpa using this)
        · exact ih [] (by simp) w hw
    · have hc2 : isPySpace c = false := by simpa using hc
      simp only [splitWsA, hc2, Bool.false_eq_true, if_false] at hw
      refine ih (c :: acc) ?_ w hw
      intro x hx
      rcases List.mem_cons.mp hx with hx | hx
      · subst hx; exact hc2
      · exact hacc x hx

/-- Every line the greedy loop emits fits, provided the pending line and
each remaining word fit on their own. -/
theorem wrapAux_fits (sw : String → ℚ) (mw : ℚ) :
    ∀ (ws : List String) (line : String), sw line ≤ mw →
      (∀ w ∈ ws, sw w ≤ mw) →
      ∀ l ∈ wrapAux sw mw line ws, sw l ≤ mw := by
  intro ws
  induction ws with
  | nil =>
    intro line h1 _ l hl
    simp only [wrapAux, List.mem_singleton] at hl
    subst hl
    exact h1
  | cons w tl ih =>
    intro line h1 h2 l hl
    simp only [wrapAux] at hl
    split at hl
    · rename_i hfit
      exact ih (line ++ " " ++ w) hfit (fun u hu => h2 u (by simp [hu])) l hl
    · rcases List.mem_cons.mp hl with hl | hl
      · subst hl; exact h1
      · exact ih w (h2 w (by simp)) (fun u hu => h2 u (by simp [hu])) l hl

/-- The first line the greedy loop emits is the pending line extended by
some initial run of the remaining words. -/
theorem wrapAux_head (sw : String → ℚ) (mw : ℚ) :
    ∀ (ws : List String) (line h : String) (t : List String),
      wrapAux sw mw line ws = h :: t →
      ∃ us : List String, (∀ u ∈ us, u ∈ ws) ∧ h = joinWords (line :: us) := by
  intro ws
  induction ws with
  | nil =>
    intro line h t heq
    simp only [wrapAux, List.cons.injEq] at heq
    exact ⟨[], by simp, heq.1.symm⟩
  | cons w tl ih =>
    intro line h t heq
    simp only [wrapAux] at heq
    split at heq
    · obtain ⟨us, hus, hh⟩ := ih (line ++ " " ++ w) h t heq
      refine ⟨w :: us, ?_, ?_⟩
      · intro u hu
        rcases List.mem_cons.mp hu with hu | hu
        · subst hu; simp
        · simp [hus u hu]
      · rw [hh, joinWords_shift]
    · simp only [List.cons.injEq] at heq
      exact ⟨[], by simp, heq.1.symm⟩

/-- Greedy commitment: between consecutive emitted lines, the first line
extended by the first word of the next line would exceed the width. -/
theorem wrapAux_chain (sw : String → ℚ) (mw : ℚ) :
    ∀ (ws : List String) (line : String),
      (∀ w ∈ ws, w.data ≠ [] ∧ ∀ c ∈ w.data, isPySpace c = false) →
      List.Chain' (fun a b => mw < sw (a ++ " " ++ ((splitWs b).headD "")))
        (wrapAux sw mw line ws) := by
  intro ws
  induction ws with
  | nil => intro line _; exact List.chain'_singleton _
  | cons w tl ih =>
    intro line hws
    simp only [wrapAux]
    split
    · exact ih (line ++ " " ++ w) (fun u hu => hws u (by simp [hu]))
    · rename_i hnofit
      obtain ⟨h, t, hrest⟩ : ∃ x y, wrapAux sw mw w tl = x :: y :=
        List.exists_cons_of_ne_nil (wrapAux_ne_nil sw mw tl w)
      rw [hrest]
      obtain ⟨us, hus, hh⟩ := wrapAux_head sw mw tl w h t hrest
      have hsplit : splitWs h = w :: us := by
        rw [hh]
        refine splitWs_join (w :: us) ?_
        intro v hv
        rcases List.mem_cons.mp hv with hv | hv
        · rw [hv]; exact hws w (by simp)
        · exact hws v (by simp [hus v hv])
      have hr : mw < sw (line ++ " " ++ ((splitWs h).headD "")) := by
        rw [hsplit]
        simp only [List.headD_cons]
        exact lt_of_not_le hnofit
      have hchain : List.Chain'
          (fun a b => mw < sw (a ++ " " ++ ((splitWs b).headD ""))) (h :: t) := by
        rw [← hrest]
        exact ih w (fun v hv => hws v (by simp [hv]))
      exact List.Chain'.cons hr hchain

/-- Claim C1: for a text whose words each fit the width budget, the greedy
word-wrap of both `wrap_text` and `draw_wrapped` is lossless and
order-preserving (joining the lines with single spaces gives the
whitespace-collapsed text, and splitting the joined lines returns exactly
the original words), every produced line fits the budget, and a line is
committed only when extending it by the next line's first word would
exceed the budget. -/
theorem claim_C1 (sw : String → ℚ) (mw : ℚ) (t : String)
    (hfit : ∀ w ∈ splitWs t, sw w ≤ mw) :
    joinWords (wrap_text sw mw t) = collapseWs t ∧
    joinWords (draw_wrapped_lines sw mw t) = collapseWs t ∧
    splitWs (joinWords (wrap_text sw mw t)) = splitWs t ∧
    (∀ l ∈ draw_wrapped_lines sw mw t, sw l ≤ mw) ∧
    List.Chain' (fun a b => mw < sw (a ++ " " ++ ((splitWs b).headD "")))
      (wrap_text sw mw t) := by
  have hwf : ∀ w ∈ splitWs t, w.data ≠ [] ∧ ∀ c ∈ w.data, isPySpace c = false :=
    fun w hw => splitWsA_words_wf t.data [] (by simp) w hw
  cases hsp : splitWs t with
  | nil =>
    have h1 : wrap_text sw mw t = [""] := by simp [wrap_text, hsp]
    have h2 : draw_wrapped_lines sw mw t = [] := by
      simp [draw_wrapped_lines, hsp]
    have hc : collapseWs t = "" := by simp [collapseWs, hsp, joinWords]
    refine ⟨?_, ?_, ?_, ?_, ?_⟩
    · rw [h1, hc]; rfl
    · rw [h2, hc]; rfl
    · rw [h1]; rfl
    · rw [h2]; intro l hl; simp at hl
    · rw [h1]; exact List.chain'_singleton _
  | cons w ws =>
    have h1 : wrap_text sw mw t = wrapAux sw mw w ws := by
      simp [wrap_text, hsp]
    have h2 : draw_wrapped_lines sw mw t = wrapAux sw mw w ws := by
      simp [draw_wrapped_lines, hsp]
    have hwf2 : ∀ u ∈ w :: ws, u.data ≠ [] ∧ ∀ c ∈ u.data, isPySpace c = false := by
      rw [← hsp]; exact hwf
    have hjoin : joinWords (wrapAux sw mw w ws) = collapseWs t := by
      rw [wrapAux_join sw mw ws w, collapseWs, hsp]
    refine ⟨?_, ?_, ?_, ?_, ?_⟩
    · rw [h1, hjoin]
    · rw [h2, hjoin]
    · rw [h1, hjoin, collapseWs, ← hsp]
      exact splitWs_join (splitWs t) hwf
    · rw [h2]
      refine wrapAux_fits sw mw ws w ?_ ?_
      · exact hfit w (by rw [hsp]; simp)
      · intro u hu
        exact hfit u (by rw [hsp]; simp [hu])
    · rw [h1]
      exact wrapAux_chain sw mw ws w (fun u hu => hwf2 u (by simp [hu]))

/-- Witness for C1 at a concrete text and width measure. -/
theorem claim_C1_witness :
    joinWords (wrap_text (fun _ => (0 : ℚ)) 0 "greedy wrap test") =
      collapseWs "greedy wrap test" :=
  (claim_C1 (fun _ => (0 : ℚ)) 0 "greedy wrap test"
    (fun _ _ => le_refl 0)).1

/-! ## Claim C2: sanitizer -/

/-- Characters surviving the printability filter are newlines or printable
characters of code point at least 32. -/
theorem mem_keepPrintable (printable : Char → Bool) (l : List Char) (c : Char)
    (h : c ∈ keepPrintable printable l) :
    c = '\n' ∨ (32 ≤ c.toNat ∧ printable c = true) := by
  unfold keepPrintable at h
  have := (List.mem_filter.mp h).2
  simp only [Bool.or_eq_true, beq_iff_eq, Bool.and_eq_true, decide_eq_true_eq]
    at this
  exact this

/-- Characters surviving the ASCII restriction come from the input and
have code points below 128. -/
theorem mem_asciiIgnore (l : List Char) (c : Char) (h : c ∈ asciiIgnore l) :
    c ∈ l ∧ c.toNat < 128 := by
  unfold asciiIgnore at h
  have hm := List.mem_filter.mp h
  exact ⟨hm.1, by simpa using hm.2⟩

/-- Characters of the whitespace-collapsed list are single spaces or
non-whitespace characters of the input. -/
theorem mem_pySubWsA : ∀ (l : List Char) (b : Bool) (c : Char),
    c ∈ pySubWsA b l → c = ' ' ∨ (c ∈ l ∧ isPySpace c = false) := by
  intro l
  induction l with
  | nil => intro b c h; simp [pySubWsA] at h
  | cons d ds ih =>
    intro b c h
    by_cases hd : isPySpace d = true
    · by_cases hb : b = true
      · subst hb
        simp only [pySubWsA, hd, if_true] at h
        rcases ih true c h with h | h
        · exact Or.inl h
        · exact Or.inr ⟨by simp [h.1], h.2⟩
      · have hb2 : b = false := by simpa using hb
        subst hb2
        simp only [pySubWsA, hd, if_true, Bool.false_eq_true, if_false,
          List.mem_cons] at h
        rcases h with h | h
        · exact Or.inl h
        · rcases ih true c h with h | h
          · exact Or.inl h
          · exact Or.inr ⟨by simp [h.1], h.2⟩
    · have hd2 : isPySpace d = false := by simpa using hd
      simp only [pySubWsA, hd2, Bool.false_eq_true, if_false,
        List.mem_cons] at h
      rcases h with h | h
      · subst h
        exact Or.inr ⟨by simp, hd2⟩
      · rcases ih false c h with h | h
        · exact Or.inl h
        · exact Or.inr ⟨by simp [h.1], h.2⟩

/-- Stripping only removes characters. -/
theorem mem_pyStripL (l : List Char) (c : Char) (h : c ∈ pyStripL l) :
    c ∈ l := by
  unfold pyStripL at h
  rw [List.mem_reverse] at h
  have h1 := (List.dropWhile_sublist isPySpace
    (l := (l.dropWhile isPySpace).reverse)).mem h
  rw [List.mem_reverse] at h1
  exact (List.dropWhile_sublist isPySpace (l := l)).mem h1

/-- Claim C2: for every input, and for every printability table that marks
the delete character non-printable (as Python's does), each character of
the sanitized text is a renderable ASCII character with code point in
`[32, 126]`; thus no control character at all survives (in particular the
invariant "no control characters except newline" holds).  Moreover the
non-printable-stripping stage itself preserves newlines. -/
theorem claim_C2 (nfkd : String → String) (printable : Char → Bool)
    (text : String)
    (hdel : ∀ c : Char, c.toNat = 127 → printable c = false) :
    (∀ c ∈ (sanitize_for_pdf nfkd printable text).data,
      32 ≤ c.toNat ∧ c.toNat ≤ 126) ∧
    (∀ c ∈ (sanitize_for_pdf nfkd printable text).data, c.toNat ≥ 32) ∧
    (∀ l : List Char, '\n' ∈ l → '\n' ∈ keepPrintable printable l) := by
  have main : ∀ c ∈ (sanitize_for_pdf nfkd printable text).data,
      32 ≤ c.toNat ∧ c.toNat ≤ 126 := by
    intro c hc
    unfold sanitize_for_pdf at hc
    by_cases ht : text = ""
    · simp [ht] at hc
    · rw [if_neg ht] at hc
      have hc2 : c ∈ pyStripL (pySubWsL (asciiIgnore
          (keepPrintable printable (nfkd text).data))) := hc
      have hc3 := mem_pyStripL _ c hc2
      rcases mem_pySubWsA _ false c hc3 with hsp | ⟨hmem, hns⟩
      · subst hsp
        constructor
        · decide
        · decide
      · obtain ⟨hmem2, h128⟩ := mem_asciiIgnore _ c hmem
        rcases mem_keepPrintable printable _ c hmem2 with hnl | ⟨h32, hpr⟩
        · subst hnl
          simp [isPySpace] at hns
        · refine ⟨h32, ?_⟩
          by_cases h127 : c.toNat = 127
          · rw [hdel c h127] at hpr
            exact absurd hpr (by simp)
          · omega
  refine ⟨main, ?_, ?_⟩
  · intro c hc
    exact (main c hc).1
  · intro l hl
    unfold keepPrintable
    rw [List.mem_filter]
    exact ⟨hl, by simp⟩

/-- Witness for C2 with an ASCII printability table on a concrete text. -/
theorem claim_C2_witness :
    '\n' ∈ keepPrintable
      (fun c => decide (32 ≤ c.toNat ∧ c.toNat ≤ 126)) ['\n', Char.ofNat 7] :=
  (claim_C2 id (fun c => decide (32 ≤ c.toNat ∧ c.toNat ≤ 126)) "ok"
    (by intro c hc; simp [hc])).2.2 ['\n', Char.ofNat 7] (by simp)

/-! ## Claims C8 and C10: auction listing extractor -/

/-- Membership boolean of the seen-set agrees with list membership. -/
theorem containsStr (seen : List String) (k : String) :
    seen.contains k = true ↔ k ∈ seen := by
  induction seen with
  | nil => simp
  | cons a tl ih => simp [List.contains_cons, ih]

/-- The dedup loop returns a subsequence: order is first-seen order. -/
theorem dedupPlayers_sublist : ∀ (ps : List Player) (seen : List String),
    List.Sublist (dedupPlayers ps seen) ps := by
  intro ps
  induction ps with
  | nil => intro seen; simp [dedupPlayers]
  | cons p tl ih =>
    intro seen
    simp only [dedupPlayers]
    split
    · exact List.Sublist.cons₂ p (ih _)
    · exact List.Sublist.cons p (ih _)

/-- Every survivor of the dedup loop has a non-empty key not in the
seen-set the loop started from. -/
theorem dedupPlayers_key_prop : ∀ (ps : List Player) (seen : List String),
    ∀ p ∈ dedupPlayers ps seen, playerKey p ≠ "" ∧ playerKey p ∉ seen := by
  intro ps
  induction ps with
  | nil => intro seen p hp; simp [dedupPlayers] at hp
  | cons q tl ih =>
    intro seen p hp
    simp only [dedupPlayers] at hp
    split at hp
    · rename_i hcond
      simp only [Bool.and_eq_true, Bool.not_eq_eq_eq_not, Bool.not_true,
        decide_eq_true_eq] at hcond
      rcases List.mem_cons.mp hp with hp | hp
      · subst hp
        refine ⟨?_, ?_⟩
        · intro hk
          have := hcond.1
          simp [hk] at this
        · intro hk
          have hc := hcond.2
          rw [Bool.eq_false_iff] at hc
          exact hc ((containsStr seen (playerKey p)).mpr hk)
      · have := ih _ p hp
        exact ⟨this.1, fun hk => this.2 (by simp [hk])⟩
    · exact ih _ p hp

/-- The surviving keys are pairwise distinct: entries that agree on the
case-folded stripped name collapse to a single entry. -/
theorem dedupPlayers_nodup : ∀ (ps : List Player) (seen : List String),
    ((dedupPlayers ps seen).map playerKey).Nodup := by
  intro ps
  induction ps with
  | nil => intro seen; simp [dedupPlayers]
  | cons q tl ih =>
    intro seen
    simp only [dedupPlayers]
    split
    · simp only [List.map_cons, List.nodup_cons]
      refine ⟨?_, ih _⟩
      intro hmem
      obtain ⟨p, hp, hkey⟩ := List.mem_map.mp hmem
      have := (dedupPlayers_key_prop tl _ p hp).2
      exact this (by simp [hkey])
    · exact ih _

/-- Each survivor is the first entry of the scanned list bearing its key. -/
theorem dedupPlayers_first : ∀ (ps : List Player) (seen : List String),
    ∀ p ∈ dedupPlayers ps seen,
      ps.find? (fun q => playerKey q == playerKey p) = some p := by
  intro ps
  induction ps with
  | nil => intro seen p hp; simp [dedupPlayers] at hp
  | cons q tl ih =>
    intro seen p hp
    simp only [dedupPlayers] at hp
    split at hp
    · rename_i hcond
      rcases List.mem_cons.mp hp with hp | hp
      · subst hp
        simp [List.find?_cons]
      · have hkp := (dedupPlayers_key_prop tl _ p hp).2
        have hne : playerKey q ≠ playerKey p := by
          intro he
          exact hkp (by simp [← he])
        rw [List.find?_cons]
        have : (playerKey q == playerKey p) = false := by
          simp [hne]
        rw [this]
        exact ih _ p hp
    · rename_i hcond
      have hkp := dedupPlayers_key_prop tl seen p hp
      have hq : playerKey q = "" ∨ playerKey q ∈ seen := by
        by_contra hcon
        push_neg at hcon
        apply hcond
        simp only [Bool.and_eq_true, Bool.not_eq_eq_eq_not, Bool.not_true,
          decide_eq_true_eq]
        refine ⟨hcon.1, ?_⟩
        rw [Bool.eq_false_iff]
        intro hc
        exact hcon.2 ((containsStr seen (playerKey q)).mp hc)
      have hne : playerKey q ≠ playerKey p := by
        intro he
        rcases hq with hq | hq
        · exact hkp.1 (by rw [← he]; exact hq)
        · exact hkp.2 (by rw [← he]; exact hq)
      rw [List.find?_cons]
      have : (playerKey q == playerKey p) = false := by
        simp [hne]
      rw [this]
      exact ih seen p hp

/-- Every scanned entry with a usable key is represented among the
survivors. -/
theorem dedupPlayers_complete : ∀ (ps : List Player) (seen : List String),
    ∀ q ∈ ps, playerKey q ∉ seen → playerKey q ≠ "" →
      ∃ p ∈ dedupPlayers ps seen, playerKey p = playerKey q := by
  intro ps
  induction ps with
  | nil => intro seen q hq; simp at hq
  | cons r tl ih =>
    intro seen q hq hseen hne
    simp only [dedupPlayers]
    split
    · rename_i hcond
      by_cases hk : playerKey q = playerKey r
      · exact ⟨r, by simp, hk.symm⟩
      · rcases List.mem_cons.mp hq with hq | hq
        · exact absurd (congrArg playerKey hq) hk
        · have hnotin : playerKey q ∉ playerKey r :: seen := by
            intro hmem
            rcases List.mem_cons.mp hmem with hmem | hmem
            · exact hk hmem
            · exact hseen hmem
          obtain ⟨p, hp, hkey⟩ := ih _ q hq hnotin hne
          exact ⟨p, by simp [hp], hkey⟩
    · rename_i hcond
      have hqr : playerKey r = "" ∨ playerKey r ∈ seen := by
        by_contra hcon
        push_neg at hcon
        apply hcond
        simp only [Bool.and_eq_true, Bool.not_eq_eq_eq_not, Bool.not_true,
          decide_eq_true_eq]
        refine ⟨hcon.1, ?_⟩
        rw [Bool.eq_false_iff]
        intro hc
        exact hcon.2 ((containsStr seen (playerKey r)).mp hc)
      rcases List.mem_cons.mp hq with hq | hq
      · exfalso
        rcases hqr with hqr | hqr
        · exact hne (by rw [hq]; exact hqr)
        · exact hseen (by rw [hq]; exact hqr)
      · exact ih seen q hq hseen hne

/-- Entries from the script-fragment heuristic carry an empty team. -/
theorem scriptPlayers_team (html : String) :
    ∀ p ∈ scriptPlayers html, p.ipl_team = "" := by
  intro p hp
  unfold scriptPlayers at hp
  obtain ⟨n, _, hf⟩ := List.mem_filterMap.mp hp
  by_cases hk : keepName n = true
  · rw [if_pos hk] at hf
    cases hf
    rfl
  · rw [if_neg hk] at hf
    exact absurd hf (by simp)

/-- Entries from the table fallback carry an empty team. -/
theorem tablePlayers_team (rows : List (List String)) :
    ∀ p ∈ tablePlayers rows, p.ipl_team = "" := by
  intro p hp
  unfold tablePlayers at hp
  obtain ⟨tds, _, hf⟩ := List.mem_filterMap.mp hp
  unfold rowPlayer at hf
  by_cases he : tds.isEmpty = true
  · rw [if_pos he] at hf
    exact absurd hf (by simp)
  · rw [if_neg he] at hf
    cases hfind : tds.find? (fun cell =>
        nameShaped cell && decide ((splitWs cell).length ≤ 4)) with
    | none => rw [hfind] at hf; exact absurd hf (by simp)
    | some cell =>
      rw [hfind] at hf
      cases hf
      rfl

/-- Every entry of the pre-dedup list carries an empty team. -/
theorem preDedup_team (html : String) (rows : List (List String)) :
    ∀ p ∈ preDedup html rows, p.ipl_team = "" := by
  intro p hp
  unfold preDedup at hp
  by_cases he : (scriptPlayers html).isEmpty = true
  · rw [if_pos he] at hp
    exact tablePlayers_team rows p hp
  · rw [if_neg he] at hp
    exact scriptPlayers_team html p hp

/-- Claim C8: the listing extractor's output is a subsequence of the
pre-dedup entry list (first-seen order is preserved); the case-folded
stripped name keys of the output are pairwise distinct (entries differing
only in letter case collapse to one); each surviving entry is the first
scanned entry bearing its key; and every scanned entry with a non-empty key
is represented by a survivor with the same key. -/
theorem claim_C8 (html : String) (rows : List (List String)) :
    List.Sublist (extract_players_from_espn_html html rows)
      (preDedup html rows) ∧
    ((extract_players_from_espn_html html rows).map playerKey).Nodup ∧
    (∀ p ∈ extract_players_from_espn_html html rows,
      (preDedup html rows).find? (fun q => playerKey q == playerKey p) =
        some p) ∧
    (∀ q ∈ preDedup html rows, playerKey q ≠ "" →
      ∃ p ∈ extract_players_from_espn_html html rows,
        playerKey p = playerKey q) := by
  refine ⟨?_, ?_, ?_, ?_⟩
  · exact dedupPlayers_sublist (preDedup html rows) []
  · exact dedupPlayers_nodup (preDedup html rows) []
  · exact fun p hp => dedupPlayers_first (preDedup html rows) [] p hp
  · exact fun q hq hne =>
      dedupPlayers_complete (preDedup html rows) [] q hq (by simp) hne

/-- Witness for C8: two case-variants of one name collapse to the
first-seen entry. -/
theorem claim_C8_witness :
    (preDedup "" [["Rohit Sharma"], ["ROHIT SHARMA"]]).find?
      (fun q => playerKey q == playerKey ⟨"Rohit Sharma", ""⟩) =
      some ⟨"Rohit Sharma", ""⟩ :=
  (claim_C8 "" [["Rohit Sharma"], ["ROHIT SHARMA"]]).2.2.1
    ⟨"Rohit Sharma", ""⟩ (by
      have h : scriptPlayers "" = [] := by
        simp [scriptPlayers, findNames, findNamesFuel, List.mergeSort_nil]
      simp only [extract_players_from_espn_html, preDedup, h,
        List.isEmpty_nil, if_true]
      decide)

/-- Claim C10: every entry the listing extractor returns has an empty
`ipl_team`: the team fragments matched by the team regex are never attached
to a player, so the auction-page team hint is always empty. -/
theorem claim_C10 (html : String) (rows : List (List String)) :
    ∀ p ∈ extract_players_from_espn_html html rows, p.ipl_team = "" := by
  intro p hp
  have hmem : p ∈ preDedup html rows :=
    (dedupPlayers_sublist (preDedup html rows) []).mem hp
  exact preDedup_team html rows p hmem

/-- Witness for C10 on a concrete table-fallback page. -/
theorem claim_C10_witness :
    Player.ipl_team ⟨"Rohit Sharma", ""⟩ = "" :=
  claim_C10 "" [["Rohit Sharma"], ["ROHIT SHARMA"]] ⟨"Rohit Sharma", ""⟩ (by
    have h : scriptPlayers "" = [] := by
      simp [scriptPlayers, findNames, findNamesFuel, List.mergeSort_nil]
    simp only [extract_players_from_espn_html, preDedup, h,
      List.isEmpty_nil, if_true]
    decide)
